import Mathlib

set_option maxHeartbeats 1000000

namespace Llmls

/- Verification of the llmls model-listing utility.  Go strings are
modelled as lists of runes (List Char); byte lengths are recovered via
Char.utf8Size where the source measures bytes. -/

/-- Lowercase folding of a rune string; models the case-insensitive
comparisons of the source (ASCII folding via Char.toLower). -/
def toLowerStr (s : List Char) : List Char := s.map Char.toLower

/-- Models strings.EqualFold: case-insensitive equality of two strings. -/
def eqFold (a b : List Char) : Bool := toLowerStr a == toLowerStr b

/-- Tokens of the regular expressions emitted by globMatch after the
translation in openrouter.go lines 76-81: star is a Kleene star over any
character (the emitted .*), anyOne a single any-character wildcard (the
emitted .), lit a literal character (an escaped or plain character). -/
inductive GlobTok where
  | star : GlobTok
  | anyOne : GlobTok
  | lit : Char → GlobTok
deriving DecidableEq

/-- The characters escaped by regexp.QuoteMeta. -/
def metaChars : List Char :=
  ['\\', '.', '+', '*', '?', '(', ')', '|', '[', ']', '\x7b', '\x7d', '^', '$']

/-- Models regexp.QuoteMeta: put a backslash before every regex
metacharacter. -/
def quoteMeta : List Char → List Char
  | [] => []
  | c :: rest =>
    if c ∈ metaChars then '\\' :: c :: quoteMeta rest else c :: quoteMeta rest

/-- Models strings.ReplaceAll for a two-character needle: leftmost,
non-overlapping replacement of the pair a b by repl. -/
def replace2 (a b : Char) (repl : List Char) : List Char → List Char
  | [] => []
  | [c] => [c]
  | c :: d :: rest =>
    if c = a ∧ d = b then repl ++ replace2 a b repl rest
    else c :: replace2 a b repl (d :: rest)

/-- The regex string built by globMatch (openrouter.go lines 76-79):
QuoteMeta, then the escaped star becomes dot-star, then the escaped
question mark becomes a dot.  The anchors added on line 81 are modelled by
the matcher gmatch being a whole-string matcher. -/
def globTranslate (pattern : List Char) : List Char :=
  replace2 '\\' '?' ['.'] (replace2 '\\' '*' ['.', '*'] (quoteMeta pattern))

/-- Models regexp.Compile on the emitted regex fragment: an escape pair
yields a literal, dot-star yields a star, a lone dot yields a single-char
wildcard, a plain non-metacharacter yields a literal; anything else (a
trailing backslash, a bare metacharacter such as an unmatched bracket or a
quantifier with nothing to repeat) is malformed and yields none. -/
def parseRegex : List Char → Option (List GlobTok)
  | [] => some []
  | [c] =>
    if c = '\\' then none
    else if c = '.' then some [GlobTok.anyOne]
    else if c ∈ metaChars then none
    else some [GlobTok.lit c]
  | c :: d :: rest =>
    if c = '\\' then (parseRegex rest).map (GlobTok.lit d :: ·)
    else if c = '.' then
      if d = '*' then (parseRegex rest).map (GlobTok.star :: ·)
      else (parseRegex (d :: rest)).map (GlobTok.anyOne :: ·)
    else if c ∈ metaChars then none
    else (parseRegex (d :: rest)).map (GlobTok.lit c :: ·)

/-- Anchored, case-insensitive matcher for the compiled tokens; models
re.MatchString of the anchored case-insensitive regex built by globMatch:
the whole string must be consumed.  globMatch sets only the i flag, and
the RE2 dot does not match a newline unless the s flag is set, so anyOne
and every character consumed by star exclude the newline. -/
def gmatch : List GlobTok → List Char → Bool
  | [], [] => true
  | [], _ :: _ => false
  | GlobTok.lit _ :: _, [] => false
  | GlobTok.lit c :: p, d :: s => (c.toLower == d.toLower) && gmatch p s
  | GlobTok.anyOne :: _, [] => false
  | GlobTok.anyOne :: p, d :: s => (d != '\n') && gmatch p s
  | GlobTok.star :: p, [] => gmatch p []
  | GlobTok.star :: p, c :: s =>
    gmatch p (c :: s) || ((c != '\n') && gmatch (GlobTok.star :: p) s)
termination_by p s => (p.length, s.length)

/-- Branch structure of globMatch (openrouter.go lines 84-89): on a
compile failure fall back to strings.EqualFold, otherwise run the
compiled matcher. -/
def globMatchWith (compiled : Option (List GlobTok)) (pattern str : List Char) : Bool :=
  match compiled with
  | none => eqFold pattern str
  | some toks => gmatch toks str

/-- Models globMatch (openrouter.go lines 73-90). -/
def globMatch (pattern str : List Char) : Bool :=
  globMatchWith (parseRegex (globTranslate pattern)) pattern str

/-- Direct tokenization of a glob pattern: star and question mark are
wildcards, every other character is a literal. -/
def tokenize (p : List Char) : List GlobTok :=
  p.map (fun c => if c = '*' then GlobTok.star else if c = '?' then GlobTok.anyOne else GlobTok.lit c)

/-- Declarative matching semantics of the token list: an empty pattern
matches only the empty string (anchoring), a literal matches exactly one
equal-up-to-case character, anyOne matches exactly one character other
than newline, star matches zero or more characters none of which is a
newline (the RE2 dot, and hence dot-star, excludes the newline when the s
flag is not set). -/
inductive SpecMatch : List GlobTok → List Char → Prop
  | nil : SpecMatch [] []
  | lit {c d : Char} {p : List GlobTok} {s : List Char} :
      c.toLower = d.toLower → SpecMatch p s → SpecMatch (GlobTok.lit c :: p) (d :: s)
  | one {c : Char} {p : List GlobTok} {s : List Char} :
      c ≠ '\n' → SpecMatch p s → SpecMatch (GlobTok.anyOne :: p) (c :: s)
  | starEmpty {p : List GlobTok} {s : List Char} :
      SpecMatch p s → SpecMatch (GlobTok.star :: p) s
  | starMore {c : Char} {p : List GlobTok} {s : List Char} :
      c ≠ '\n' → SpecMatch (GlobTok.star :: p) s → SpecMatch (GlobTok.star :: p) (c :: s)

/-- Intermediate form of the translated pattern after the dot-star
replacement only. -/
def starRep : List Char → List Char
  | [] => []
  | c :: rest =>
    if c = '*' then '.' :: '*' :: starRep rest
    else if c ∈ metaChars then '\\' :: c :: starRep rest
    else c :: starRep rest

/-- Final form of the translated pattern after both replacements. -/
def qRep : List Char → List Char
  | [] => []
  | c :: rest =>
    if c = '*' then '.' :: '*' :: qRep rest
    else if c = '?' then '.' :: qRep rest
    else if c ∈ metaChars then '\\' :: c :: qRep rest
    else c :: qRep rest

/-- Architecture details of a model (openrouter.go lines 33-38). -/
structure Architecture where
  modality : List Char
  inputModalities : List (List Char)
  outputModalities : List (List Char)
  tokenizer : List Char
deriving DecidableEq

/-- Pricing information of a model (openrouter.go lines 41-48). -/
structure Pricing where
  prompt : List Char
  completion : List Char
  request : List Char
  image : List Char
  webSearch : List Char
  internalReasoning : List Char
deriving DecidableEq

/-- Top provider details (openrouter.go lines 51-55). -/
structure TopProvider where
  contextLength : Int
  maxCompletionTokens : Int
  isModerated : Bool
deriving DecidableEq

/-- Ollama-specific details attached to a unified record
(openrouter.go lines 58-64). -/
structure OllamaDetails where
  size : Int
  format : List Char
  family : List Char
  parameterSize : List Char
  quantizationLevel : List Char
deriving DecidableEq

/-- The unified model record (openrouter.go lines 20-30); the Go pointer
field OllamaDetails, nil for primary-source records, is an Option. -/
structure Model where
  id : List Char
  name : List Char
  created : Int
  description : List Char
  contextLength : Int
  architecture : Architecture
  pricing : Pricing
  topProvider : TopProvider
  ollamaDetails : Option OllamaDetails
deriving DecidableEq

/-- The model record of the snapshot in src/unnamed/part_003
(lines 19-24), which carries only the four display fields. -/
structure ModelB where
  id : List Char
  name : List Char
  created : Int
  description : List Char
deriving DecidableEq

/-- The sentinel provider tag. -/
def unknownStr : List Char := "Unknown".data

/-- Models strings.Index(modelID, slash): index of the first slash, none
when absent (Go returns -1). -/
def indexOfSlash : List Char → Option Nat
  | [] => none
  | c :: rest => if c = '/' then some 0 else (indexOfSlash rest).map (· + 1)

/-- Models ExtractProvider (openrouter.go lines 175-180): the part of the
id before the first slash when that slash exists at a positive index,
otherwise Unknown. -/
def extractProvider (modelID : List Char) : List Char :=
  match indexOfSlash modelID with
  | some idx => if 0 < idx then modelID.take idx else unknownStr
  | none => unknownStr

/-- Modelled from the spec: the derived provider tag is the substring of
id before the first slash, or Unknown when id has no slash or the slash is
at position 0. -/
def providerTagSpec (id : List Char) : List Char :=
  if id.head? = some '/' ∨ '/' ∉ id then unknownStr
  else id.takeWhile (fun c => c != '/')

/-- Models FilterModels (openrouter.go lines 121-143): with an empty
pattern all models pass; otherwise a model passes when the pattern
glob-matches its id, or glob-matches its name, or EqualFold-equals its
derived provider. -/
def FilterModels (models : List Model) (pattern : List Char) : List Model :=
  if pattern = [] then models
  else models.filter (fun m =>
    globMatch pattern m.id || globMatch pattern m.name ||
      eqFold pattern (extractProvider m.id))

/-- Models strings.HasPrefix: the second argument is a leading segment of
the first. -/
def strStartsWith : List Char → List Char → Bool
  | _, [] => true
  | [], _ :: _ => false
  | c :: s, d :: sub => c == d && strStartsWith s sub

/-- Models strings.Contains: the second argument occurs as a contiguous
segment of the first. -/
def strContains (s sub : List Char) : Bool :=
  match s with
  | [] => sub.isEmpty
  | _ :: s' => strStartsWith s sub || strContains s' sub

/-- Models FilterModels of src/unnamed/part_003 (lines 59-110): explicit
provider/model/description filters take precedence over the unified
search term; the unified branch is an OR of case-insensitive substring
checks over id, name, provider and description, the explicit branch an
AND of the supplied per-field substring checks. -/
def FilterModelsB (models : List ModelB)
    (providerFilter modelFilter descriptionFilter searchTerm : List Char) : List ModelB :=
  let hasExplicitFilters : Bool :=
    !providerFilter.isEmpty || !modelFilter.isEmpty || !descriptionFilter.isEmpty
  if !hasExplicitFilters && searchTerm.isEmpty then models
  else if !hasExplicitFilters && !searchTerm.isEmpty then
    models.filter (fun m =>
      let provider := extractProvider m.id
      let searchLower := toLowerStr searchTerm
      (strContains (toLowerStr m.id) searchLower ||
          strContains (toLowerStr m.name) searchLower) ||
        strContains (toLowerStr provider) searchLower ||
        strContains (toLowerStr m.description) searchLower)
  else
    models.filter (fun m =>
      let provider := extractProvider m.id
      (providerFilter.isEmpty ||
          strContains (toLowerStr provider) (toLowerStr providerFilter)) &&
        (modelFilter.isEmpty ||
          strContains (toLowerStr m.id) (toLowerStr modelFilter) ||
          strContains (toLowerStr m.name) (toLowerStr modelFilter)) &&
        (descriptionFilter.isEmpty ||
          strContains (toLowerStr m.description) (toLowerStr descriptionFilter)))

/-- The newline folding shared by TruncateDescription (openrouter.go
lines 162-164) and WrapText (lines 407-409): ReplaceAll of the CRLF pair
by a space, then of CR by a space, then of LF by a space. -/
def foldNewlines (s : List Char) : List Char :=
  (((replace2 '\r' '\n' [' '] s).map (fun c => if c = '\r' then ' ' else c)).map
    (fun c => if c = '\n' then ' ' else c))

/-- Models TruncateDescription (openrouter.go lines 160-172): fold
newlines, then if the rune count exceeds maxLen keep the first maxLen
runes and append the two-dot marker, else return the folded text. -/
def TruncateDescription (desc : List Char) (maxLen : Nat) : List Char :=
  let d := foldNewlines desc
  if d.length ≤ maxLen then d else d.take maxLen ++ ['.', '.']

/-- The UTF-8 byte length of a rune string; models Go len on a string. -/
def byteLen (s : List Char) : Nat := (s.map Char.utf8Size).sum

/-- Whitespace recognised by strings.Fields (unicode.IsSpace restricted
to the Latin-1 range, which covers every character this program can put
next to a word boundary after newline folding). -/
def goIsSpace (c : Char) : Bool :=
  c = ' ' || c = '\t' || c = '\n' || c = '\x0b' || c = '\x0c' || c = '\r' ||
    c = '\x85' || c = '\xa0'

/-- Accumulator loop of goFields; acc holds the current word reversed. -/
def fieldsAux : List Char → List Char → List (List Char)
  | [], acc => if acc.isEmpty then [] else [acc.reverse]
  | c :: rest, acc =>
    if goIsSpace c then
      if acc.isEmpty then fieldsAux rest [] else acc.reverse :: fieldsAux rest []
    else fieldsAux rest (c :: acc)

/-- Models strings.Fields: split around maximal runs of whitespace. -/
def goFields (s : List Char) : List (List Char) := fieldsAux s []

/-- Greedy line-packing loop of WrapText (openrouter.go lines 417-427):
append the next word to the current line when it still fits within width
(byte lengths, one joining space), otherwise emit the line and start a
new one with that word. -/
def wrapLoop (width : Nat) : List Char → List (List Char) → List (List Char)
  | currentLine, [] => [currentLine]
  | currentLine, w :: rest =>
    if byteLen currentLine + 1 + byteLen w ≤ width then
      wrapLoop width (currentLine ++ ' ' :: w) rest
    else currentLine :: wrapLoop width w rest

/-- Models WrapText (openrouter.go lines 405-430): fold newlines, split
into fields, return no lines when there is no word, otherwise pack
greedily starting from the first word. -/
def WrapText (text : List Char) (width : Nat) : List (List Char) :=
  match goFields (foldNewlines text) with
  | [] => []
  | w :: ws => wrapLoop width w ws

/-- Join a group of words with single spaces; a wrapped line is such a
join of a contiguous nonempty group of words. -/
def joinW : List (List Char) → List Char
  | [] => []
  | [w] => w
  | w :: ws => w ++ ' ' :: joinW ws

/-- Insertion step of the sort model: place m before the first element
whose created stamp is at most m's. -/
def insertByCreatedDesc (m : Model) : List Model → List Model
  | [] => [m]
  | x :: xs =>
    if x.created ≤ m.created then m :: x :: xs else x :: insertByCreatedDesc m xs

/-- Models SortModelsByCreatedDesc (openrouter.go lines 146-150):
sort.Slice with the comparison Created-greater-than.  sort.Slice promises
a permutation of the input ordered by the comparison and is deterministic
on identical input; it is modelled here by insertion sort, which
satisfies the same contract and coincides with it on records whose
timestamps are pairwise distinct. -/
def SortModelsByCreatedDesc (models : List Model) : List Model :=
  models.foldr insertByCreatedDesc []

/-- Decimal rendering of an integer; models fmt.Sprintf of an int with
the d verb. -/
def intDecimal (n : Int) : List Char :=
  if n < 0 then '-' :: Nat.toDigits 10 n.natAbs else Nat.toDigits 10 n.natAbs

/-- Separator-insertion loop of FormatNumber (openrouter.go lines
370-377), phrased on the remaining suffix: the Go loop writes a comma
before the character at index i when i is positive and len minus i is a
multiple of 3; len minus i is the length of the suffix starting at i, and
i is positive exactly when that suffix is shorter than the whole
string. -/
def insertSepR (L : Nat) : List Char → List Char
  | [] => []
  | c :: rest =>
    if (c :: rest).length % 3 = 0 ∧ (c :: rest).length < L then
      ',' :: c :: insertSepR L rest
    else c :: insertSepR L rest

/-- Models FormatNumber (openrouter.go lines 368-378). -/
def FormatNumber (n : Int) : List Char :=
  let str := intDecimal n
  insertSepR str.length str

/-- Modelled from the spec: group a digit string with a comma every three
digits counting from the right; no comma when at most three digits
remain. -/
def groupSpec (s : List Char) : List Char :=
  if s.length ≤ 3 then s
  else groupSpec (s.take (s.length - 3)) ++ ',' :: s.drop (s.length - 3)
termination_by s.length
decreasing_by simp; omega

/-- The zero value of Architecture. -/
def zeroArchitecture : Architecture :=
  { modality := []
    inputModalities := []
    outputModalities := []
    tokenizer := [] }

/-- The zero value of Pricing. -/
def zeroPricing : Pricing :=
  { prompt := []
    completion := []
    request := []
    image := []
    webSearch := []
    internalReasoning := [] }

/-- The zero value of TopProvider. -/
def zeroTopProvider : TopProvider :=
  { contextLength := 0
    maxCompletionTokens := 0
    isModerated := false }

/-- The nested Details block of an Ollama API record
(src/ollama.go lines 18-24). -/
structure OllamaModelDetails where
  format : List Char
  family : List Char
  families : List (List Char)
  parameterSize : List Char
  quantizationLevel : List Char
deriving DecidableEq

/-- A record of the Ollama tags API (src/ollama.go lines 13-25);
modifiedAt models the time.Time value by its Unix seconds, which is all
the conversion uses. -/
structure OllamaModel where
  name : List Char
  modifiedAt : Int
  size : Int
  digest : List Char
  details : OllamaModelDetails
deriving DecidableEq

/-- Round size times ten divided by two to the thirtieth to the nearest
integer, halves to even; models the rounding of the float conversion
inside the one-decimal GB rendering. -/
def roundTenthsGiB (size : Int) : Int :=
  let num := size * 10
  let den : Int := 1073741824
  let q := num / den
  let r := num % den
  if 2 * r < den then q else if den < 2 * r then q + 1 else if q % 2 = 0 then q else q + 1

/-- Models the Sprintf one-decimal GB rendering in
buildOllamaDescription (src/ollama.go line 126). -/
def formatGB (size : Int) : List Char :=
  let tenths := roundTenthsGiB size
  intDecimal (tenths / 10) ++ '.' :: intDecimal (tenths % 10)

/-- Models buildOllamaDescription (src/ollama.go lines 99-134). -/
def buildOllamaDescription (om : OllamaModel) : List Char :=
  let d1 := if om.details.family.isEmpty then [] else om.details.family
  let d2 := if om.details.parameterSize.isEmpty then d1
    else (if d1.isEmpty then d1 else d1 ++ [' ']) ++ om.details.parameterSize
  let d3 := if om.details.quantizationLevel.isEmpty then d2
    else (if d2.isEmpty then d2 else d2 ++ [' ']) ++
      '(' :: om.details.quantizationLevel ++ [')']
  let d4 := if 0 < om.size then
      (if d3.isEmpty then d3 else d3 ++ " - ".data) ++ formatGB om.size ++ " GB".data
    else d3
  if d4.isEmpty then "Ollama local model".data else d4

/-- Conversion of one Ollama record into the unified shape
(src/ollama.go lines 78-91); the Go struct literal leaves the remaining
Model fields at their zero values. -/
def convertOllamaModel (om : OllamaModel) : Model :=
  { id := "ollama/".data ++ om.name
    name := om.name
    created := om.modifiedAt
    description := buildOllamaDescription om
    contextLength := 0
    architecture := zeroArchitecture
    pricing := zeroPricing
    topProvider := zeroTopProvider
    ollamaDetails := some
      { size := om.size
        format := om.details.format
        family := om.details.family
        parameterSize := om.details.parameterSize
        quantizationLevel := om.details.quantizationLevel } }

/-- The conversion loop of FetchOllamaModels (src/ollama.go lines 76-93). -/
def convertOllamaModels (oms : List OllamaModel) : List Model :=
  oms.map convertOllamaModel

/-- The JSON-visible fields of a primary-source record: the field
OllamaDetails is tagged as excluded from deserialization
(openrouter.go line 29), so a decoded record can only carry these. -/
structure ModelJSON where
  id : List Char
  name : List Char
  created : Int
  description : List Char
  contextLength : Int
  architecture : Architecture
  pricing : Pricing
  topProvider : TopProvider
deriving DecidableEq

/-- Models json.Unmarshal into a Model value: every JSON-visible field is
copied and the excluded OllamaDetails pointer keeps its zero value nil. -/
def decodeModel (f : ModelJSON) : Model :=
  { id := f.id, name := f.name, created := f.created, description := f.description
    contextLength := f.contextLength, architecture := f.architecture
    pricing := f.pricing, topProvider := f.topProvider, ollamaDetails := none }

/-- A sample Ollama record used by witnesses. -/
def sampleOllamaModel : OllamaModel :=
  { name := "llama3".data
    modifiedAt := 1700000000
    size := 1073741824
    digest := []
    details :=
      { format := "gguf".data
        family := "llama".data
        families := []
        parameterSize := "8B".data
        quantizationLevel := "Q4_0".data } }

/-- Sample unified records used by witnesses and examples. -/
def sampleModelA : Model :=
  { id := "anthropic/claude".data
    name := "Claude".data
    created := 2000
    description := []
    contextLength := 0
    architecture := zeroArchitecture
    pricing := zeroPricing
    topProvider := zeroTopProvider
    ollamaDetails := none }

/-- A second sample record with a different timestamp. -/
def sampleModel100 : Model := { sampleModelA with created := 100 }

/-- A third sample record. -/
def sampleModel300 : Model := { sampleModelA with created := 300 }

/-- A fourth sample record. -/
def sampleModel200 : Model := { sampleModelA with created := 200 }

/-! Theorems and supporting lemmas. -/

theorem replace2_cons_of_ne (a b : Char) (repl : List Char) (c : Char) (t : List Char)
    (h : c ≠ a ∨ t.head? ≠ some b) :
    replace2 a b repl (c :: t) = c :: replace2 a b repl t := by
  cases t with
  | nil => simp [replace2]
  | cons d t' =>
    have hnc : ¬(c = a ∧ d = b) := by
      rcases h with h | h
      · exact fun hab => h hab.1
      · exact fun hab => h (by simp [hab.2])
    simp [replace2, hnc]

theorem quoteMeta_head_not_star (p : List Char) : (quoteMeta p).head? ≠ some '*' := by
  cases p with
  | nil => simp [quoteMeta]
  | cons c rest =>
    by_cases hm : c ∈ metaChars
    · simp [quoteMeta, hm]
    · have : c ≠ '*' := fun h => hm (h ▸ (by decide : '*' ∈ metaChars))
      simp [quoteMeta, hm, this]

theorem starRep_head_not_q (p : List Char) : (starRep p).head? ≠ some '?' := by
  cases p with
  | nil => simp [starRep]
  | cons c rest =>
    by_cases hs : c = '*'
    · simp [starRep, hs]
    · by_cases hm : c ∈ metaChars
      · simp [starRep, hs, hm]
      · have : c ≠ '?' := fun h => hm (h ▸ (by decide : '?' ∈ metaChars))
        simp [starRep, hs, hm, this]

theorem qRep_head_not_star (p : List Char) : (qRep p).head? ≠ some '*' := by
  cases p with
  | nil => simp [qRep]
  | cons c rest =>
    by_cases hs : c = '*'
    · simp [qRep, hs]
    · by_cases hq : c = '?'
      · simp [qRep, hs, hq]
      · by_cases hm : c ∈ metaChars
        · simp [qRep, hs, hq, hm]
        · have : c ≠ '*' := fun h => hm (h ▸ (by decide : '*' ∈ metaChars))
          simp [qRep, hs, hq, hm, this]

theorem replaceStar_quoteMeta (p : List Char) :
    replace2 '\\' '*' ['.', '*'] (quoteMeta p) = starRep p := by
  induction p with
  | nil => simp [quoteMeta, starRep, replace2]
  | cons c rest ih =>
    by_cases hm : c ∈ metaChars
    · by_cases hs : c = '*'
      · subst hs
        have e1 : quoteMeta ('*' :: rest) = '\\' :: '*' :: quoteMeta rest := by
          simp [quoteMeta, hm]
        have e2 : starRep ('*' :: rest) = '.' :: '*' :: starRep rest := by
          simp [starRep]
        rw [e1, e2]
        simp [replace2, ih]
      · have e1 : quoteMeta (c :: rest) = '\\' :: c :: quoteMeta rest := by
          simp [quoteMeta, hm]
        have e2 : starRep (c :: rest) = '\\' :: c :: starRep rest := by
          simp [starRep, hs, hm]
        have e3 : replace2 '\\' '*' ['.', '*'] ('\\' :: c :: quoteMeta rest)
            = '\\' :: replace2 '\\' '*' ['.', '*'] (c :: quoteMeta rest) := by
          simp [replace2, hs]
        rw [e1, e2, e3, replace2_cons_of_ne _ _ _ _ _ ?side, ih]
        case side =>
          by_cases hb : c = '\\'
          · exact Or.inr (quoteMeta_head_not_star rest)
          · exact Or.inl hb
    · have hb : c ≠ '\\' := fun h => hm (h ▸ (by decide : '\\' ∈ metaChars))
      have hs : c ≠ '*' := fun h => hm (h ▸ (by decide : '*' ∈ metaChars))
      have e1 : quoteMeta (c :: rest) = c :: quoteMeta rest := by
        simp [quoteMeta, hm]
      have e2 : starRep (c :: rest) = c :: starRep rest := by
        simp [starRep, hs, hm]
      rw [e1, e2, replace2_cons_of_ne _ _ _ _ _ (Or.inl hb), ih]

theorem replaceQ_starRep (p : List Char) :
    replace2 '\\' '?' ['.'] (starRep p) = qRep p := by
  induction p with
  | nil => simp [starRep, qRep, replace2]
  | cons c rest ih =>
    by_cases hs : c = '*'
    · subst hs
      have e1 : starRep ('*' :: rest) = '.' :: '*' :: starRep rest := by
        simp [starRep]
      have e2 : qRep ('*' :: rest) = '.' :: '*' :: qRep rest := by
        simp [qRep]
      rw [e1, e2, replace2_cons_of_ne _ _ _ _ _ (Or.inl (by decide)),
        replace2_cons_of_ne _ _ _ _ _ (Or.inl (by decide)), ih]
    · by_cases hq : c = '?'
      · subst hq
        have e1 : starRep ('?' :: rest) = '\\' :: '?' :: starRep rest := by
          simp [starRep, (by decide : '?' ∈ metaChars)]
        have e2 : qRep ('?' :: rest) = '.' :: qRep rest := by
          simp [qRep]
        rw [e1, e2]
        simp [replace2, ih]
      · by_cases hm : c ∈ metaChars
        · have e1 : starRep (c :: rest) = '\\' :: c :: starRep rest := by
            simp [starRep, hs, hm]
          have e2 : qRep (c :: rest) = '\\' :: c :: qRep rest := by
            simp [qRep, hs, hq, hm]
          have e3 : replace2 '\\' '?' ['.'] ('\\' :: c :: starRep rest)
              = '\\' :: replace2 '\\' '?' ['.'] (c :: starRep rest) := by
            simp [replace2, hq]
          rw [e1, e2, e3, replace2_cons_of_ne _ _ _ _ _ ?side, ih]
          case side =>
            by_cases hb : c = '\\'
            · exact Or.inr (starRep_head_not_q rest)
            · exact Or.inl hb
        · have hb : c ≠ '\\' := fun h => hm (h ▸ (by decide : '\\' ∈ metaChars))
          have e1 : starRep (c :: rest) = c :: starRep rest := by
            simp [starRep, hs, hm]
          have e2 : qRep (c :: rest) = c :: qRep rest := by
            simp [qRep, hs, hq, hm]
          rw [e1, e2, replace2_cons_of_ne _ _ _ _ _ (Or.inl hb), ih]

theorem parseRegex_esc (d : Char) (t : List Char) :
    parseRegex ('\\' :: d :: t) = (parseRegex t).map (GlobTok.lit d :: ·) := by
  simp [parseRegex]

theorem parseRegex_dotStar (t : List Char) :
    parseRegex ('.' :: '*' :: t) = (parseRegex t).map (GlobTok.star :: ·) := by
  simp [parseRegex]

theorem parseRegex_dot (t : List Char) (h : t.head? ≠ some '*') :
    parseRegex ('.' :: t) = (parseRegex t).map (GlobTok.anyOne :: ·) := by
  cases t with
  | nil => simp [parseRegex]
  | cons e t' =>
    have he : e ≠ '*' := by simpa using h
    simp [parseRegex, he]

theorem parseRegex_plain (c : Char) (t : List Char) (hm : c ∉ metaChars) :
    parseRegex (c :: t) = (parseRegex t).map (GlobTok.lit c :: ·) := by
  have hb : c ≠ '\\' := fun h => hm (h ▸ (by decide : '\\' ∈ metaChars))
  have hd : c ≠ '.' := fun h => hm (h ▸ (by decide : '.' ∈ metaChars))
  cases t with
  | nil => simp [parseRegex, hb, hd, hm]
  | cons e t' => simp [parseRegex, hb, hd, hm]

theorem parseRegex_qRep (p : List Char) : parseRegex (qRep p) = some (tokenize p) := by
  induction p with
  | nil => simp [qRep, parseRegex, tokenize]
  | cons c rest ih =>
    by_cases hs : c = '*'
    · subst hs
      have e2 : qRep ('*' :: rest) = '.' :: '*' :: qRep rest := by simp [qRep]
      rw [e2, parseRegex_dotStar, ih]
      simp [tokenize]
    · by_cases hq : c = '?'
      · subst hq
        have e2 : qRep ('?' :: rest) = '.' :: qRep rest := by simp [qRep]
        rw [e2, parseRegex_dot _ (qRep_head_not_star rest), ih]
        simp [tokenize]
      · by_cases hm : c ∈ metaChars
        · have e2 : qRep (c :: rest) = '\\' :: c :: qRep rest := by
            simp [qRep, hs, hq, hm]
          rw [e2, parseRegex_esc, ih]
          simp [tokenize, hs, hq]
        · have e2 : qRep (c :: rest) = c :: qRep rest := by
            simp [qRep, hs, hq, hm]
          rw [e2, parseRegex_plain _ _ hm, ih]
          simp [tokenize, hs, hq]

theorem parseRegex_globTranslate (p : List Char) :
    parseRegex (globTranslate p) = some (tokenize p) := by
  rw [globTranslate, replaceStar_quoteMeta, replaceQ_starRep, parseRegex_qRep]

theorem globMatch_eq_gmatch (p s : List Char) :
    globMatch p s = gmatch (tokenize p) s := by
  rw [globMatch, parseRegex_globTranslate]
  rfl

theorem specMatch_of_gmatch_aux (n : Nat) :
    ∀ (p : List GlobTok) (s : List Char), p.length + s.length ≤ n →
      gmatch p s = true → SpecMatch p s := by
  induction n with
  | zero =>
    intro p s hle h
    match p, s with
    | [], [] => exact SpecMatch.nil
    | [], _ :: _ => simp at hle
    | _ :: _, _ => simp at hle
  | succ n ih =>
    intro p s hle h
    match p, s with
    | [], [] => exact SpecMatch.nil
    | [], _ :: _ => simp [gmatch] at h
    | GlobTok.lit c :: p', [] => simp [gmatch] at h
    | GlobTok.lit c :: p', d :: s' =>
      simp only [gmatch, Bool.and_eq_true, beq_iff_eq] at h
      exact SpecMatch.lit h.1 (ih p' s' (by simp at hle ⊢; omega) h.2)
    | GlobTok.anyOne :: p', [] => simp [gmatch] at h
    | GlobTok.anyOne :: p', d :: s' =>
      simp only [gmatch, Bool.and_eq_true, bne_iff_ne] at h
      exact SpecMatch.one h.1 (ih p' s' (by simp at hle ⊢; omega) h.2)
    | GlobTok.star :: p', [] =>
      exact SpecMatch.starEmpty (ih p' [] (by simp at hle ⊢; omega) (by simpa [gmatch] using h))
    | GlobTok.star :: p', c :: s' =>
      simp only [gmatch, Bool.or_eq_true, Bool.and_eq_true, bne_iff_ne] at h
      rcases h with h | ⟨hc, h⟩
      · exact SpecMatch.starEmpty (ih p' (c :: s') (by simp at hle ⊢; omega) h)
      · exact SpecMatch.starMore hc
          (ih (GlobTok.star :: p') s' (by simp at hle ⊢; omega) h)

theorem specMatch_of_gmatch {p : List GlobTok} {s : List Char} (h : gmatch p s = true) :
    SpecMatch p s :=
  specMatch_of_gmatch_aux (p.length + s.length) p s le_rfl h

theorem gmatch_of_specMatch {p : List GlobTok} {s : List Char} (h : SpecMatch p s) :
    gmatch p s = true := by
  induction h with
  | nil => simp [gmatch]
  | lit hc _ ih => simp [gmatch, hc, ih]
  | one hc _ ih => simp [gmatch, bne_iff_ne, hc, ih]
  | starEmpty _ ih =>
    rename_i p s _
    cases s with
    | nil => simpa [gmatch] using ih
    | cons c s' => simp [gmatch, ih]
  | starMore hc _ ih => simp [gmatch, bne_iff_ne, hc, ih]

theorem gmatch_iff_specMatch (p : List GlobTok) (s : List Char) :
    gmatch p s = true ↔ SpecMatch p s :=
  ⟨specMatch_of_gmatch, gmatch_of_specMatch⟩

theorem specMatch_allLit (p s : List Char) :
    SpecMatch (p.map GlobTok.lit) s ↔ toLowerStr p = toLowerStr s := by
  induction p generalizing s with
  | nil =>
    cases s with
    | nil => simp [toLowerStr]; exact SpecMatch.nil
    | cons d s' =>
      constructor
      · intro h; cases h
      · intro h; simp [toLowerStr] at h
  | cons c p' ih =>
    cases s with
    | nil =>
      constructor
      · intro h; cases h
      · intro h; simp [toLowerStr] at h
    | cons d s' =>
      constructor
      · intro h
        cases h with
        | lit hc hm => simpa [toLowerStr, hc] using (ih s').mp hm
      · intro h
        simp only [toLowerStr, List.map_cons, List.cons.injEq] at h
        exact SpecMatch.lit h.1 ((ih s').mpr h.2)

theorem tokenize_of_noWildcard (p : List Char) (h : ∀ c ∈ p, c ≠ '*' ∧ c ≠ '?') :
    tokenize p = p.map GlobTok.lit := by
  induction p with
  | nil => rfl
  | cons c rest ih =>
    have hc := h c (by simp)
    simp only [tokenize, List.map_cons, if_neg hc.1, if_neg hc.2]
    have := ih (fun x hx => h x (by simp [hx]))
    simpa [tokenize] using this

theorem specMatch_star_iff (s : List Char) : SpecMatch [GlobTok.star] s ↔ '\n' ∉ s := by
  induction s with
  | nil =>
    constructor
    · intro _
      simp
    · intro _
      exact SpecMatch.starEmpty SpecMatch.nil
  | cons c s' ih =>
    constructor
    · intro h
      cases h with
      | starEmpty h' => cases h'
      | starMore hc h' =>
        simp only [List.mem_cons, not_or]
        exact ⟨fun hx => hc hx.symm, ih.mp h'⟩
    · intro h
      have hns : SpecMatch [GlobTok.star] s' := ih.mpr (fun hx => h (by simp [hx]))
      have hc : c ≠ '\n' := by
        intro hx
        subst hx
        exact h (by simp)
      exact SpecMatch.starMore hc hns

/-- C1 counterexample: the wildcards of globMatch do not match a newline
-- the RE2 dot excludes it when the s flag is absent, and globMatch sets
only the i flag -- so a lone star rejects a candidate containing a
newline and a lone question mark rejects the newline itself, where the
claim's zero-or-more-of-any-character reading demands a match. -/
theorem globMatch_newline_cex :
    globMatch ['*'] ['a', '\n', 'b'] = false ∧ globMatch ['?'] ['\n'] = false := by
  constructor
  · rw [globMatch_eq_gmatch]
    have ht : tokenize ['*'] = [GlobTok.star] := by simp [tokenize]
    rw [ht]
    cases hb : gmatch [GlobTok.star] ['a', '\n', 'b'] with
    | false => rfl
    | true =>
      exact absurd (by simp : ('\n' ∈ (['a', '\n', 'b'] : List Char)))
        ((specMatch_star_iff _).mp (specMatch_of_gmatch hb))
  · rw [globMatch_eq_gmatch]
    have ht : tokenize ['?'] = [GlobTok.anyOne] := by simp [tokenize]
    rw [ht]
    simp [gmatch]

/-- C1 (amended): globMatch interprets a pattern with star as zero or
more arbitrary non-newline characters (path separators included),
question mark as exactly one arbitrary non-newline character, and every
other character -- regex metacharacters included -- as a literal;
matching is case-insensitive and anchored: this is exactly the
declarative semantics SpecMatch of the tokenized pattern.  A lone star
matches exactly the newline-free strings, and a pattern containing no
wildcard matches a candidate exactly when the two are case-insensitively
equal.  The original claim's "any character" fails at the newline, which
the compiled regex's dot excludes. -/
theorem globMatch_semantics :
    (∀ p s : List Char, globMatch p s = true ↔ SpecMatch (tokenize p) s) ∧
    (∀ s : List Char, globMatch ['*'] s = true ↔ '\n' ∉ s) ∧
    (∀ p s : List Char, (∀ c ∈ p, c ≠ '*' ∧ c ≠ '?') →
      (globMatch p s = true ↔ toLowerStr p = toLowerStr s)) := by
  refine ⟨fun p s => ?_, fun s => ?_, fun p s h => ?_⟩
  · rw [globMatch_eq_gmatch]
    exact gmatch_iff_specMatch _ _
  · rw [globMatch_eq_gmatch]
    have ht : tokenize ['*'] = [GlobTok.star] := by simp [tokenize]
    rw [ht, gmatch_iff_specMatch]
    exact specMatch_star_iff s
  · rw [globMatch_eq_gmatch, tokenize_of_noWildcard p h, gmatch_iff_specMatch,
      specMatch_allLit]

theorem globMatch_semantics_witness :
    (∀ c ∈ (['a', 'B'] : List Char), c ≠ '*' ∧ c ≠ '?') ∧
    (globMatch ['a', 'B'] ['A', 'b'] = true ↔
      toLowerStr ['a', 'B'] = toLowerStr ['A', 'b']) :=
  ⟨by decide, globMatch_semantics.2.2 ['a', 'B'] ['A', 'b'] (by decide)⟩

/-- C8: the translation of every glob pattern compiles successfully (the
compiled form is the straightforward tokenization, so the matcher is total
and never surfaces an error), and the fallback branch taken on a
hypothetical compile failure is exactly the case-insensitive
exact-equality comparison strings.EqualFold. -/
theorem globMatch_total_fallback :
    (∀ pattern : List Char, parseRegex (globTranslate pattern) = some (tokenize pattern)) ∧
    (∀ pattern str : List Char, globMatchWith none pattern str = eqFold pattern str) ∧
    (∀ pattern str : List Char, globMatch pattern str = gmatch (tokenize pattern) str) :=
  ⟨parseRegex_globTranslate, fun _ _ => rfl, globMatch_eq_gmatch⟩

theorem eqFold_iff (a b : List Char) : eqFold a b = true ↔ toLowerStr a = toLowerStr b := by
  simp [eqFold]

theorem indexOfSlash_none {l : List Char} (h : indexOfSlash l = none) : '/' ∉ l := by
  induction l with
  | nil => simp
  | cons c rest ih =>
    by_cases hc : c = '/'
    · simp [indexOfSlash, hc] at h
    · simp only [indexOfSlash, if_neg hc] at h
      cases hr : indexOfSlash rest with
      | none => simp [hc, Ne.symm hc, ih hr]
      | some i => simp [hr] at h

theorem indexOfSlash_some {l : List Char} {i : Nat} (h : indexOfSlash l = some i) :
    '/' ∈ l ∧ l.take i = l.takeWhile (fun c => c != '/') := by
  induction l generalizing i with
  | nil => simp [indexOfSlash] at h
  | cons c rest ih =>
    by_cases hc : c = '/'
    · subst hc
      have h0 : indexOfSlash ('/' :: rest) = some 0 := by simp [indexOfSlash]
      rw [h0] at h
      injection h with h
      subst h
      refine ⟨by simp, ?_⟩
      simp [List.takeWhile_cons]
    · simp only [indexOfSlash, if_neg hc] at h
      cases hr : indexOfSlash rest with
      | none => simp [hr] at h
      | some i' =>
        rw [hr] at h
        have h1 : i' + 1 = i := by simpa using h
        subst h1
        refine ⟨by simp [(ih hr).1], ?_⟩
        have hcb : (c != '/') = true := by simp [hc]
        simp only [List.take_succ_cons, List.takeWhile_cons, hcb, if_true]
        rw [(ih hr).2]

theorem extractProvider_eq_spec (id : List Char) : extractProvider id = providerTagSpec id := by
  cases id with
  | nil => simp [extractProvider, indexOfSlash, providerTagSpec]
  | cons c rest =>
    by_cases hc : c = '/'
    · subst hc
      simp [extractProvider, indexOfSlash, providerTagSpec]
    · cases hr : indexOfSlash rest with
      | none =>
        have hmem : '/' ∉ rest := indexOfSlash_none hr
        simp [extractProvider, indexOfSlash, hc, hr, providerTagSpec, Ne.symm hc, hmem]
      | some i =>
        obtain ⟨hmem, htake⟩ := indexOfSlash_some hr
        have h0 : indexOfSlash (c :: rest) = some (i + 1) := by
          simp [indexOfSlash, hc, hr]
        have hcond : ¬((c :: rest).head? = some '/' ∨ '/' ∉ c :: rest) := by
          simp [hc, hmem]
        have hcb : (c != '/') = true := by simp [hc]
        simp only [extractProvider, h0, providerTagSpec, if_neg hcond]
        rw [if_pos (Nat.succ_pos i), List.take_succ_cons]
        simp only [List.takeWhile_cons, hcb, if_true]
        rw [htake]

/-- C2: in unified search mode (openrouter.go FilterModels) with a
non-empty pattern, a record survives exactly when the pattern glob-matches
its id, or glob-matches its display name, or is case-insensitively equal
to its derived provider tag (the part of the id before the first slash,
Unknown when that slash is absent or at position 0). -/
theorem filterModels_unified (pattern : List Char) (models : List Model) (m : Model)
    (hp : pattern ≠ []) :
    m ∈ FilterModels models pattern ↔
      m ∈ models ∧
        (globMatch pattern m.id = true ∨ globMatch pattern m.name = true ∨
          toLowerStr pattern = toLowerStr (providerTagSpec m.id)) := by
  rw [FilterModels, if_neg hp, List.mem_filter]
  simp [Bool.or_eq_true, eqFold_iff, extractProvider_eq_spec, or_assoc]

theorem filterModels_unified_witness :
    (['*'] : List Char) ≠ [] ∧
      (∀ m : Model, ∀ models : List Model,
        m ∈ FilterModels models ['*'] ↔
          m ∈ models ∧
            (globMatch ['*'] m.id = true ∨ globMatch ['*'] m.name = true ∨
              toLowerStr ['*'] = toLowerStr (providerTagSpec m.id))) :=
  ⟨by decide, fun m models => filterModels_unified ['*'] models m (by decide)⟩

theorem strStartsWith_iff (s sub : List Char) :
    strStartsWith s sub = true ↔ ∃ t, s = sub ++ t := by
  induction sub generalizing s with
  | nil => simp [strStartsWith]
  | cons d sub' ih =>
    cases s with
    | nil => simp [strStartsWith]
    | cons c s' =>
      simp only [strStartsWith, Bool.and_eq_true, beq_iff_eq, ih, List.cons_append,
        List.cons.injEq]
      constructor
      · rintro ⟨rfl, t, rfl⟩
        exact ⟨t, rfl, rfl⟩
      · rintro ⟨t, rfl, rfl⟩
        exact ⟨rfl, t, rfl⟩

theorem strContains_iff (s sub : List Char) :
    strContains s sub = true ↔ ∃ l r, s = l ++ sub ++ r := by
  induction s with
  | nil =>
    simp only [strContains, List.isEmpty_iff]
    constructor
    · rintro rfl
      exact ⟨[], [], rfl⟩
    · rintro ⟨l, r, h⟩
      rcases List.append_eq_nil.mp h.symm with ⟨h1, h2⟩
      exact (List.append_eq_nil.mp h1).2
  | cons c s' ih =>
    simp only [strContains, Bool.or_eq_true, strStartsWith_iff, ih]
    constructor
    · rintro (⟨t, ht⟩ | ⟨l, r, hl⟩)
      · exact ⟨[], t, by simpa using ht⟩
      · exact ⟨c :: l, r, by simp [hl]⟩
    · rintro ⟨l, r, hl⟩
      cases l with
      | nil => exact Or.inl ⟨r, by simpa using hl⟩
      | cons x l' =>
        simp only [List.cons_append, List.cons.injEq] at hl
        exact Or.inr ⟨l', r, hl.2⟩

/-- C3: in explicit multi-field mode (FilterModels of
src/unnamed/part_003) with at least one of the provider, model or
description filters supplied, a record survives exactly when it satisfies
every supplied filter: the provider filter is a case-insensitive
substring of the derived provider tag, the model filter of the id or the
display name, the description filter of the description; an empty filter
is vacuously satisfied.  A record matching the provider filter but not a
supplied model filter therefore fails the conjunction and is excluded. -/
theorem filterModelsB_explicit (pF mF dF st : List Char) (models : List ModelB) (m : ModelB)
    (h : pF ≠ [] ∨ mF ≠ [] ∨ dF ≠ []) :
    m ∈ FilterModelsB models pF mF dF st ↔
      m ∈ models ∧
        (pF = [] ∨ ∃ l r, toLowerStr (providerTagSpec m.id) = l ++ toLowerStr pF ++ r) ∧
        (mF = [] ∨ (∃ l r, toLowerStr m.id = l ++ toLowerStr mF ++ r) ∨
          (∃ l r, toLowerStr m.name = l ++ toLowerStr mF ++ r)) ∧
        (dF = [] ∨ ∃ l r, toLowerStr m.description = l ++ toLowerStr dF ++ r) := by
  have hE : (!pF.isEmpty || !mF.isEmpty || !dF.isEmpty) = true := by
    rcases h with h | h | h <;> simp [List.isEmpty_iff, h]
  rw [FilterModelsB]
  simp only [hE, Bool.not_true, Bool.false_and, Bool.false_eq_true, if_false,
    List.mem_filter]
  refine and_congr_right fun _ => ?_
  simp only [Bool.and_eq_true, Bool.or_eq_true, strContains_iff, extractProvider_eq_spec,
    List.isEmpty_iff, and_assoc, or_assoc]

theorem filterModelsB_explicit_witness :
    ((['a'] : List Char) ≠ [] ∨ ([] : List Char) ≠ [] ∨ ([] : List Char) ≠ []) ∧
      (∀ m : ModelB, ∀ models : List ModelB,
        m ∈ FilterModelsB models ['a'] [] [] [] ↔
          m ∈ models ∧
            ((['a'] : List Char) = [] ∨
              ∃ l r, toLowerStr (providerTagSpec m.id) = l ++ toLowerStr ['a'] ++ r) ∧
            (([] : List Char) = [] ∨ (∃ l r, toLowerStr m.id = l ++ toLowerStr [] ++ r) ∨
              (∃ l r, toLowerStr m.name = l ++ toLowerStr [] ++ r)) ∧
            (([] : List Char) = [] ∨
              ∃ l r, toLowerStr m.description = l ++ toLowerStr [] ++ r)) :=
  ⟨Or.inl (by decide),
    fun m models => filterModelsB_explicit ['a'] [] [] [] models m (Or.inl (by decide))⟩

/-- C4: with no pattern and no field filters, both filter functions
return their input unchanged; and for every pattern or filter
combination the output is a sublist of the input, so the relative order
of the surviving records is preserved. -/
theorem filter_identity_sublist :
    (∀ models : List Model, FilterModels models [] = models) ∧
    (∀ models : List ModelB, FilterModelsB models [] [] [] [] = models) ∧
    (∀ (models : List Model) (pattern : List Char),
      List.Sublist (FilterModels models pattern) models) ∧
    (∀ (models : List ModelB) (pF mF dF st : List Char),
      List.Sublist (FilterModelsB models pF mF dF st) models) := by
  refine ⟨fun models => ?_, fun models => ?_, fun models pattern => ?_,
    fun models pF mF dF st => ?_⟩
  · rw [FilterModels, if_pos rfl]
  · rw [FilterModelsB]
    simp
  · rw [FilterModels]
    split
    · exact List.Sublist.refl models
    · exact List.filter_sublist models
  · rw [FilterModelsB]
    split
    · exact List.Sublist.refl models
    · split
      · exact List.filter_sublist models
      · exact List.filter_sublist models

theorem replace2_id (a b : Char) (repl : List Char) :
    ∀ s : List Char, (∀ c ∈ s, c ≠ a) → replace2 a b repl s = s := by
  intro s
  induction s with
  | nil => intro _; rfl
  | cons c rest ih =>
    intro h
    cases rest with
    | nil => rfl
    | cons d t =>
      have hc : c ≠ a := h c (by simp)
      have : ¬(c = a ∧ d = b) := fun hx => hc hx.1
      rw [replace2, if_neg this, ih (fun x hx => h x (by simp [hx]))]

theorem map_id_on (f : Char → Char) :
    ∀ s : List Char, (∀ c ∈ s, f c = c) → s.map f = s := by
  intro s
  induction s with
  | nil => intro _; rfl
  | cons c rest ih =>
    intro h
    simp only [List.map_cons, h c (by simp), ih (fun x hx => h x (by simp [hx]))]

theorem foldNewlines_id (text : List Char) (h : ∀ c ∈ text, c ≠ '\r' ∧ c ≠ '\n') :
    foldNewlines text = text := by
  rw [foldNewlines, replace2_id _ _ _ _ (fun c hc => (h c hc).1)]
  rw [map_id_on (fun c => if c = '\r' then ' ' else c) text
    (fun c hc => by simp [(h c hc).1])]
  rw [map_id_on (fun c => if c = '\n' then ' ' else c) text
    (fun c hc => by simp [(h c hc).2])]

/-- C5 counterexample: the string with one three-byte character followed
by a CRLF pair has 3 runes and 5 bytes, yet truncating it to 2 does not
produce 2 runes plus the two-dot marker -- the CRLF pair is folded to a
single space first, the folded text fits, and no marker is appended. -/
theorem truncate_multibyte_cex :
    (['あ', '\r', '\n'] : List Char).length = 3 ∧
    3 < byteLen ['あ', '\r', '\n'] ∧
    TruncateDescription ['あ', '\r', '\n'] 2 = ['あ', ' '] ∧
    (TruncateDescription ['あ', '\r', '\n'] 2).length ≠ 2 + 2 :=
  ⟨rfl, by decide, by decide, by decide⟩

/-- C5 (amended): TruncateDescription folds line-break sequences to
single spaces and then either returns the folded text (when its rune
count is within maxLen) or exactly the first maxLen runes followed by the
two-character marker; and for a text free of line-break characters whose
byte length exceeds its rune count N, truncating to N-1 yields exactly
the first N-1 intact runes plus the marker (N-1 plus 2 runes in all),
never a split character.  The original claim's final clause fails when
the text contains a CRLF pair, since folding shortens it. -/
theorem truncate_amended (text : List Char) (maxLen : Nat) :
    (TruncateDescription text maxLen =
      if (foldNewlines text).length ≤ maxLen then foldNewlines text
      else (foldNewlines text).take maxLen ++ ['.', '.']) ∧
    ((∀ c ∈ text, c ≠ '\r' ∧ c ≠ '\n') → text.length < byteLen text →
      1 ≤ text.length →
      TruncateDescription text (text.length - 1) =
        text.take (text.length - 1) ++ ['.', '.'] ∧
      (TruncateDescription text (text.length - 1)).length = (text.length - 1) + 2) := by
  constructor
  · rfl
  · intro hnb _ hlen
    have hfold : foldNewlines text = text := foldNewlines_id text hnb
    have hgt : ¬ text.length ≤ text.length - 1 := by omega
    constructor
    · simp only [TruncateDescription, hfold, if_neg hgt]
    · simp only [TruncateDescription, hfold, if_neg hgt, List.length_append,
        List.length_take, List.length_cons, List.length_nil]
      omega

theorem truncate_amended_witness :
    ((∀ c ∈ (['a', 'é'] : List Char), c ≠ '\r' ∧ c ≠ '\n') ∧
      (['a', 'é'] : List Char).length < byteLen ['a', 'é'] ∧
      1 ≤ (['a', 'é'] : List Char).length) ∧
    (TruncateDescription ['a', 'é'] ((['a', 'é'] : List Char).length - 1) =
        (['a', 'é'] : List Char).take ((['a', 'é'] : List Char).length - 1) ++ ['.', '.'] ∧
      (TruncateDescription ['a', 'é'] ((['a', 'é'] : List Char).length - 1)).length =
        ((['a', 'é'] : List Char).length - 1) + 2) :=
  ⟨⟨by decide, by decide, by decide⟩,
    (truncate_amended ['a', 'é'] 0).2 (by decide) (by decide) (by decide)⟩

theorem byteLen_append (a b : List Char) : byteLen (a ++ b) = byteLen a + byteLen b := by
  simp [byteLen]

theorem byteLen_space_cons (w : List Char) : byteLen (' ' :: w) = 1 + byteLen w := by
  have h1 : (' ' : Char).utf8Size = 1 := by decide
  simp [byteLen, h1]

theorem joinW_glue (a b : List Char) (l : List (List Char)) :
    joinW ((a ++ ' ' :: b) :: l) = a ++ ' ' :: joinW (b :: l) := by
  cases l with
  | nil => rfl
  | cons x xs => simp [joinW]

theorem wrapLoop_ne_nil (width : Nat) (ws : List (List Char)) (cur : List Char) :
    wrapLoop width cur ws ≠ [] := by
  induction ws generalizing cur with
  | nil => simp [wrapLoop]
  | cons w rest ih =>
    rw [wrapLoop]
    split
    · exact ih _
    · simp

theorem wrapLoop_structure (width : Nat) (ws : List (List Char)) :
    ∀ cur : List Char,
      ∃ (g : List (List Char)) (groups : List (List (List Char))),
        wrapLoop width cur ws = joinW (cur :: g) :: groups.map joinW ∧
        g ++ groups.flatten = ws ∧ ∀ gr ∈ groups, gr ≠ [] := by
  induction ws with
  | nil =>
    intro cur
    exact ⟨[], [], rfl, rfl, by simp⟩
  | cons w rest ih =>
    intro cur
    rw [wrapLoop]
    split
    · obtain ⟨g', groups', h1, h2, h3⟩ := ih (cur ++ ' ' :: w)
      refine ⟨w :: g', groups', ?_, by simp [h2], h3⟩
      rw [h1, joinW_glue]
      rfl
    · obtain ⟨g', groups', h1, h2, h3⟩ := ih w
      refine ⟨[], (w :: g') :: groups', ?_, by simp [h2], ?_⟩
      · rw [h1]
        simp [joinW]
      · intro gr hgr
        rcases List.mem_cons.mp hgr with h | h
        · simp [h]
        · exact h3 gr h

theorem wrapLoop_lines (width : Nat) (orig : List (List Char)) (ws : List (List Char)) :
    ∀ cur : List Char, (byteLen cur ≤ width ∨ cur ∈ orig) → (∀ w ∈ ws, w ∈ orig) →
      ∀ line ∈ wrapLoop width cur ws,
        byteLen line ≤ width ∨ (line ∈ orig ∧ width < byteLen line) := by
  induction ws with
  | nil =>
    intro cur hcur _ line hline
    rw [wrapLoop] at hline
    rcases List.mem_singleton.mp hline with rfl
    by_cases hb : byteLen line ≤ width
    · exact Or.inl hb
    · exact Or.inr ⟨hcur.resolve_left hb, Nat.lt_of_not_le hb⟩
  | cons w rest ih =>
    intro cur hcur hws line hline
    rw [wrapLoop] at hline
    split at hline
    · refine ih (cur ++ ' ' :: w) (Or.inl ?_) (fun x hx => hws x (by simp [hx])) line hline
      rw [byteLen_append, byteLen_space_cons]
      omega
    · rcases List.mem_cons.mp hline with rfl | hline'
      · by_cases hb : byteLen line ≤ width
        · exact Or.inl hb
        · exact Or.inr ⟨hcur.resolve_left hb, Nat.lt_of_not_le hb⟩
      · exact ih w (Or.inr (hws w (by simp))) (fun x hx => hws x (by simp [hx])) line hline'

/-- C6: WrapText folds line breaks to spaces and splits the result into
whitespace-separated words; it yields no lines exactly when there is no
word; the produced lines are the single-space joins of a partition of the
word list into contiguous nonempty groups; and every line is within width
bytes unless it is one single word that alone exceeds width, placed on
its own line unmodified. -/
theorem wrapText_spec (text : List Char) (width : Nat) :
    (WrapText text width = [] ↔ goFields (foldNewlines text) = []) ∧
    (∃ groups : List (List (List Char)),
      groups.flatten = goFields (foldNewlines text) ∧ (∀ g ∈ groups, g ≠ []) ∧
      WrapText text width = groups.map joinW) ∧
    (∀ line ∈ WrapText text width,
      byteLen line ≤ width ∨
        (line ∈ goFields (foldNewlines text) ∧ width < byteLen line)) := by
  refine ⟨?_, ?_, ?_⟩
  · rw [WrapText]
    cases h : goFields (foldNewlines text) with
    | nil => simp
    | cons w ws =>
      simp only [List.cons_ne_nil, iff_false]
      exact wrapLoop_ne_nil width ws w
  · rw [WrapText]
    cases h : goFields (foldNewlines text) with
    | nil => exact ⟨[], by simp, by simp, by simp⟩
    | cons w ws =>
      obtain ⟨g, groups, h1, h2, h3⟩ := wrapLoop_structure width ws w
      refine ⟨(w :: g) :: groups, by simp [h2], ?_, by simp [h1, joinW]⟩
      intro gr hgr
      rcases List.mem_cons.mp hgr with hh | hh
      · simp [hh]
      · exact h3 gr hh
  · rw [WrapText]
    cases h : goFields (foldNewlines text) with
    | nil => simp
    | cons w ws =>
      intro line hline
      exact wrapLoop_lines width (w :: ws) ws w (Or.inr (by simp))
        (fun x hx => by simp [hx]) line hline

theorem wrapText_spec_witness :
    byteLen ['a', 'b'] ≤ 10 ∨
      (['a', 'b'] ∈ goFields (foldNewlines ['a', 'b']) ∧ 10 < byteLen ['a', 'b']) :=
  (wrapText_spec ['a', 'b'] 10).2.2 ['a', 'b'] (by decide)

theorem insertByCreatedDesc_perm (m : Model) (l : List Model) :
    List.Perm (insertByCreatedDesc m l) (m :: l) := by
  induction l with
  | nil => exact List.Perm.refl _
  | cons x xs ih =>
    rw [insertByCreatedDesc]
    split
    · exact List.Perm.refl _
    · exact List.Perm.trans (List.Perm.cons x ih) (List.Perm.swap m x xs)

theorem insertByCreatedDesc_pairwise (m : Model) (l : List Model)
    (h : List.Pairwise (fun a b => b.created ≤ a.created) l) :
    List.Pairwise (fun a b => b.created ≤ a.created) (insertByCreatedDesc m l) := by
  induction l with
  | nil => simp [insertByCreatedDesc]
  | cons x xs ih =>
    rw [insertByCreatedDesc]
    rw [List.pairwise_cons] at h
    split
    · rename_i hc
      rw [List.pairwise_cons]
      refine ⟨?_, List.pairwise_cons.mpr h⟩
      intro b hb
      rcases List.mem_cons.mp hb with rfl | hb'
      · exact hc
      · exact le_trans (h.1 b hb') hc
    · rename_i hc
      rw [List.pairwise_cons]
      refine ⟨?_, ih h.2⟩
      intro b hb
      have hmem := (insertByCreatedDesc_perm m xs).mem_iff.mp hb
      rcases List.mem_cons.mp hmem with rfl | hb'
      · exact le_of_not_le hc
      · exact h.1 b hb'

/-- C7: SortModelsByCreatedDesc returns a permutation of its input that
is ordered by created descending (every element's stamp is at least every
later element's); the model is a pure function, so identical input yields
identical output, matching the determinism sort.Slice guarantees; and the
input with stamps 100, 300, 200 sorts to 300, 200, 100. -/
theorem sortModels_spec :
    (∀ models : List Model,
      List.Perm (SortModelsByCreatedDesc models) models ∧
      List.Pairwise (fun a b => b.created ≤ a.created) (SortModelsByCreatedDesc models)) ∧
    SortModelsByCreatedDesc [sampleModel100, sampleModel300, sampleModel200] =
      [sampleModel300, sampleModel200, sampleModel100] := by
  constructor
  · intro models
    induction models with
    | nil => exact ⟨List.Perm.refl _, List.Pairwise.nil⟩
    | cons m rest ih =>
      constructor
      · exact List.Perm.trans (insertByCreatedDesc_perm m (SortModelsByCreatedDesc rest))
          (List.Perm.cons m ih.1)
      · exact insertByCreatedDesc_pairwise m _ ih.2
  · decide

theorem insertSepR_small (L : Nat) (hL : L ≤ 3) :
    ∀ s : List Char, insertSepR L s = s := by
  intro s
  induction s with
  | nil => rfl
  | cons c rest ih =>
    have hno : ¬((c :: rest).length % 3 = 0 ∧ (c :: rest).length < L) := by
      simp only [List.length_cons]
      omega
    rw [insertSepR, if_neg hno, ih]

theorem insertSepR_append3 (a b c : Char) :
    ∀ (u : List Char) (L : Nat), 3 < L →
      insertSepR L (u ++ [a, b, c]) = insertSepR (L - 3) u ++ ',' :: [a, b, c] := by
  intro u
  induction u with
  | nil =>
    intro L hL
    have h3 : ([a, b, c] : List Char).length % 3 = 0 ∧ ([a, b, c] : List Char).length < L := by
      simp
      omega
    have h2 : ¬(([b, c] : List Char).length % 3 = 0 ∧ ([b, c] : List Char).length < L) := by
      simp
    have h1 : ¬(([c] : List Char).length % 3 = 0 ∧ ([c] : List Char).length < L) := by
      simp
    simp only [List.nil_append, insertSepR, if_pos h3, if_neg h2, if_neg h1]
  | cons x u' ih =>
    intro L hL
    have e1 : ((x :: (u' ++ [a, b, c])).length % 3 = 0 ∧ (x :: (u' ++ [a, b, c])).length < L)
        ↔ ((x :: u').length % 3 = 0 ∧ (x :: u').length < L - 3) := by
      simp only [List.length_cons, List.length_append]
      simp
      omega
    by_cases hC : (x :: u').length % 3 = 0 ∧ (x :: u').length < L - 3
    · rw [List.cons_append, insertSepR, if_pos (e1.mpr hC), insertSepR, if_pos hC,
        ih L hL]
      rfl
    · rw [List.cons_append, insertSepR, if_neg (fun hx => hC (e1.mp hx)), insertSepR,
        if_neg hC, ih L hL]
      rfl

theorem insertSepR_eq_groupSpec :
    ∀ (n : Nat) (s : List Char), s.length = n → insertSepR n s = groupSpec s := by
  intro n
  induction n using Nat.strong_induction_on with
  | _ n ih =>
    intro s hs
    by_cases h3 : s.length ≤ 3
    · rw [groupSpec, if_pos h3]
      exact insertSepR_small n (by omega) s
    · push_neg at h3
      have hvlen : (s.drop (s.length - 3)).length = 3 := by
        simp
        omega
      obtain ⟨a, b, c, habc⟩ : ∃ a b c, s.drop (s.length - 3) = [a, b, c] := by
        match hv : s.drop (s.length - 3), hvlen with
        | [a, b, c], _ => exact ⟨a, b, c, rfl⟩
      have hulen : (s.take (s.length - 3)).length = s.length - 3 := by
        simp
      have hsplit : s = s.take (s.length - 3) ++ [a, b, c] := by
        conv_lhs => rw [← List.take_append_drop (s.length - 3) s]
        rw [habc]
      rw [groupSpec, if_neg (by omega), habc]
      conv_lhs => rw [hsplit]
      rw [insertSepR_append3 a b c _ n (by omega)]
      have ihu := ih (n - 3) (by omega) (s.take (s.length - 3)) (by omega)
      rw [ihu]

/-- C9 counterexample: FormatNumber of minus 123456 is rendered with a
separator directly after the sign, "-,123,456", not the
"-123,456" that grouping every three digits from the right would give:
the Go loop counts the sign as a leading character. -/
theorem formatNumber_negative_cex :
    FormatNumber (-123456) = ("-,123,456").data ∧
    groupSpec (Nat.toDigits 10 (Int.natAbs (-123456))) = ("123,456").data ∧
    FormatNumber (-123456) ≠ '-' :: groupSpec (Nat.toDigits 10 (Int.natAbs (-123456))) := by
  have hd : Nat.toDigits 10 (Int.natAbs (-123456)) = ("123456").data := by decide
  have hg : groupSpec (("123456").data) = ("123,456").data := by
    rw [groupSpec, if_neg (by decide)]
    rw [show (("123456").data.take (("123456").data.length - 3)) = ("123").data from by decide]
    rw [show (("123456").data.drop (("123456").data.length - 3)) = ("456").data from by decide]
    rw [groupSpec, if_pos (by decide)]
    decide
  refine ⟨by decide, by rw [hd, hg], ?_⟩
  rw [hd, hg]
  decide

/-- C9 (amended): for every nonnegative integer n, FormatNumber n is the
decimal digit string of n with a comma inserted every three digits
counting from the right and no comma when at most three digits remain
(the grouping groupSpec).  For negative n the code also inserts a
separator between the minus sign and the first digit whenever the digit
count is a multiple of three, so the original unrestricted claim fails. -/
theorem formatNumber_amended (n : Int) (h : 0 ≤ n) :
    FormatNumber n = groupSpec (Nat.toDigits 10 n.natAbs) := by
  have hd : intDecimal n = Nat.toDigits 10 n.natAbs := by
    rw [intDecimal, if_neg (by omega)]
  simp only [FormatNumber, hd]
  exact insertSepR_eq_groupSpec _ _ rfl

theorem formatNumber_amended_witness :
    (0 : Int) ≤ 1234567 ∧
      FormatNumber 1234567 = groupSpec (Nat.toDigits 10 (Int.natAbs 1234567)) :=
  ⟨by decide, formatNumber_amended 1234567 (by decide)⟩

theorem extractProvider_ollamaTag (name : List Char) :
    extractProvider (("ollama/").data ++ name) = ("ollama").data := by
  have h0 : indexOfSlash (("ollama/").data ++ name) = some 6 := by
    simp [indexOfSlash]
  simp only [extractProvider, h0]
  rw [if_pos (by omega)]
  rfl

/-- C10: every record produced by the Ollama normalizer has an id equal
to ollama/ followed by the source record's name -- so its derived
provider tag is exactly ollama -- and carries a present extended-details
block holding the source's size, format, family, parameter size and
quantization level; and every record decoded from the primary source has
an absent extended-details block, that field being excluded from JSON
deserialization. -/
theorem ollama_invariants :
    (∀ (oms : List OllamaModel) (m : Model), m ∈ convertOllamaModels oms →
      ∃ om ∈ oms,
        m.id = ("ollama/").data ++ om.name ∧
        extractProvider m.id = ("ollama").data ∧
        m.ollamaDetails = some
          { size := om.size
            format := om.details.format
            family := om.details.family
            parameterSize := om.details.parameterSize
            quantizationLevel := om.details.quantizationLevel }) ∧
    (∀ f : ModelJSON, (decodeModel f).ollamaDetails = none) := by
  constructor
  · intro oms m hm
    rw [convertOllamaModels] at hm
    obtain ⟨om, hom, rfl⟩ := List.mem_map.mp hm
    exact ⟨om, hom, rfl, extractProvider_ollamaTag om.name, rfl⟩
  · intro f
    rfl

theorem ollama_invariants_witness :
    ∃ om ∈ [sampleOllamaModel],
      (convertOllamaModel sampleOllamaModel).id = ("ollama/").data ++ om.name ∧
      extractProvider (convertOllamaModel sampleOllamaModel).id = ("ollama").data ∧
      (convertOllamaModel sampleOllamaModel).ollamaDetails = some
        { size := om.size
          format := om.details.format
          family := om.details.family
          parameterSize := om.details.parameterSize
          quantizationLevel := om.details.quantizationLevel } :=
  ollama_invariants.1 [sampleOllamaModel] (convertOllamaModel sampleOllamaModel)
    (by simp [convertOllamaModels])

end Llmls
